import Mathlib

/-!
Verification of the placement core of the keyboard generator
(`src/models/keyboard/main.py`): spiral curve model, arc-length inversion,
row layout, mesh canonicalization, and the per-key emitter that produces
placements for keycaps, switches and switchplates.

Real-valued geometry is embedded over `ℝ`; exact layout arithmetic
(row offsets, mesh centering) is embedded over `ℚ` so that concrete
instances evaluate by `decide`.
-/

/-! ## Vectors over ℝ (FreeCAD.Vector) -/

@[ext]
structure Vec3 where
  x : ℝ
  y : ℝ
  z : ℝ

instance : Add Vec3 :=
  ⟨fun a b => ⟨a.x + b.x, a.y + b.y, a.z + b.z⟩⟩

theorem Vec3.add_def (a b : Vec3) : a + b = ⟨a.x + b.x, a.y + b.y, a.z + b.z⟩ := rfl

/-- Euclidean distance, as `Vector.distanceToPoint`. -/
noncomputable def dist3 (p q : Vec3) : ℝ :=
  Real.sqrt ((p.x - q.x) ^ 2 + (p.y - q.y) ^ 2 + (p.z - q.z) ^ 2)

noncomputable def norm3 (v : Vec3) : ℝ :=
  Real.sqrt (v.x ^ 2 + v.y ^ 2 + v.z ^ 2)

/-- In-place `Vector.normalize`, written functionally. -/
noncomputable def normalize3 (v : Vec3) : Vec3 :=
  ⟨v.x / norm3 v, v.y / norm3 v, v.z / norm3 v⟩

def cross3 (a b : Vec3) : Vec3 :=
  ⟨a.y * b.z - a.z * b.y, a.z * b.x - a.x * b.z, a.x * b.y - a.y * b.x⟩

/-! ## Golden spiral curve model (main.py lines 287–322) -/

/-- Golden ratio constant `PHI = (1 + sqrt 5) / 2` (main.py line 18). -/
noncomputable def PHI : ℝ := (1 + Real.sqrt 5) / 2

/-- `spiral_radius_at_angle(theta, start_diameter)`:
`a = start_diameter / 2; a * PHI ** (-theta / (pi / 2))`. -/
noncomputable def spiral_radius_at_angle (theta start_diameter : ℝ) : ℝ :=
  (start_diameter / 2) * PHI ^ (-theta / (Real.pi / 2))

/-- `spiral_position_at_angle(theta, start_diameter, center)`:
`x = -r cos theta, y = 0, z = r sin theta`, added to `center`. -/
noncomputable def spiral_position_at_angle (theta start_diameter : ℝ) (center : Vec3) : Vec3 :=
  ⟨center.x + (-(spiral_radius_at_angle theta start_diameter) * Real.cos theta),
   center.y + 0,
   center.z + spiral_radius_at_angle theta start_diameter * Real.sin theta⟩

/-- `spiral_tangent_at_angle(theta, start_diameter)`: the analytic
derivative of the spiral position, normalized. -/
noncomputable def spiral_tangent_at_angle (theta start_diameter : ℝ) : Vec3 :=
  let a := start_diameter / 2
  let r := a * PHI ^ (-theta / (Real.pi / 2))
  let dr := -a * Real.log PHI / (Real.pi / 2) * PHI ^ (-theta / (Real.pi / 2))
  normalize3 ⟨-dr * Real.cos theta + r * Real.sin theta, 0,
              dr * Real.sin theta + r * Real.cos theta⟩

/-- `spiral_normal_at_angle(theta, start_diameter)`:
`tangent.cross(y_axis)`, normalized. -/
noncomputable def spiral_normal_at_angle (theta start_diameter : ℝ) : Vec3 :=
  normalize3 (cross3 (spiral_tangent_at_angle theta start_diameter) ⟨0, 1, 0⟩)

/-! ## Row layout over ℚ (main.py lines 208–239) -/

/-- Accumulating pass of `calculate_row_layout`: key centers at
`current_offset + width_mm / 2`, advancing by `width_mm`; also returns
the running total width. -/
def row_layout_go : List ℚ → ℚ → ℚ → List (ℚ × ℚ) × ℚ
  | [], _, current => ([], current)
  | w :: ws, u, current =>
    ((current + w * u / 2, w) :: (row_layout_go ws u (current + w * u)).1,
     (row_layout_go ws u (current + w * u)).2)

/-- `calculate_row_layout(keys, u_mm)`: positions `(key_center, width_u)`
re-centered by half the total width. -/
def calculate_row_layout (keys : List ℚ) (u_mm : ℚ) : List (ℚ × ℚ) × ℚ :=
  ((row_layout_go keys u_mm 0).1.map
      (fun pw => (pw.1 - (row_layout_go keys u_mm 0).2 / 2, pw.2)),
   (row_layout_go keys u_mm 0).2)

/-- The centered 1D offsets of a row (first components of the layout). -/
def row_offsets (keys : List ℚ) (u_mm : ℚ) : List ℚ :=
  (calculate_row_layout keys u_mm).1.map Prod.fst

/-- The arc angle of `calculate_placement(position_index, key_count, u, hand_radius, ...)`:
`(position_index - (key_count - 1) / 2) * u / hand_radius` (main.py lines 191–192). -/
def calculate_placement_angle (position_index key_count : ℕ) (u hand_radius : ℚ) : ℚ :=
  ((position_index : ℚ) - ((key_count : ℚ) - 1) / 2) * u / hand_radius

/-! ## Mesh canonicalization over ℚ (main.py lines 359–366) -/

@[ext]
structure V3Q where
  x : ℚ
  y : ℚ
  z : ℚ
deriving DecidableEq

def listMinQ : List ℚ → ℚ
  | [] => 0
  | a :: as => as.foldl min a

def listMaxQ : List ℚ → ℚ
  | [] => 0
  | a :: as => as.foldl max a

/-- The centering offset computed from the mesh bounding box:
`(-(XMin+XMax)/2, -(YMin+YMax)/2, -ZMax)`. -/
def mesh_center_offset (m : List V3Q) : V3Q :=
  ⟨-(listMinQ (m.map V3Q.x) + listMaxQ (m.map V3Q.x)) / 2,
   -(listMinQ (m.map V3Q.y) + listMaxQ (m.map V3Q.y)) / 2,
   -(listMaxQ (m.map V3Q.z))⟩

/-- `Mesh.translate(dx, dy, dz)`: every vertex is shifted; the result is the
mesh's new vertex data (the Python call mutates the mesh in place). -/
def mesh_translate (m : List V3Q) (o : V3Q) : List V3Q :=
  m.map (fun v => ⟨v.x + o.x, v.y + o.y, v.z + o.z⟩)

/-- The keycap-mesh canonicalization step
(`keycap_mesh.translate(offset_x, offset_y, offset_z)`). -/
def center_keycap_mesh (m : List V3Q) : List V3Q :=
  mesh_translate m (mesh_center_offset m)

/-! ## Claim C2: spiral radius and position -/

/-- C2: for every angle `theta` and starting radius `r0` (the function's
diameter argument being `2 * r0`), the spiral radius is
`r0 * PHI ^ (-theta / (pi/2))` — so the radius at `theta = 0` is the starting
radius `r0`, not the diameter — and the position is
`center + (-r cos theta, 0, r sin theta)`. -/
theorem spiral_position_matches_spec (theta r0 : ℝ) (center : Vec3) :
    spiral_radius_at_angle 0 (2 * r0) = r0 ∧
    spiral_radius_at_angle theta (2 * r0) = r0 * PHI ^ (-theta / (Real.pi / 2)) ∧
    spiral_position_at_angle theta (2 * r0) center =
      ⟨center.x - r0 * PHI ^ (-theta / (Real.pi / 2)) * Real.cos theta,
       center.y,
       center.z + r0 * PHI ^ (-theta / (Real.pi / 2)) * Real.sin theta⟩ := by
  refine ⟨?_, ?_, ?_⟩
  · simp [spiral_radius_at_angle]
  · unfold spiral_radius_at_angle
    ring
  · unfold spiral_position_at_angle spiral_radius_at_angle
    ext <;> ring

/-! ## Claim C4 (corrected): row offsets -/

theorem row_offsets_three (w1 w2 w3 u : ℚ) :
    row_offsets [w1, w2, w3] u =
      [w1 * u / 2 - (w1 * u + w2 * u + w3 * u) / 2,
       w1 * u + w2 * u / 2 - (w1 * u + w2 * u + w3 * u) / 2,
       w1 * u + w2 * u + w3 * u / 2 - (w1 * u + w2 * u + w3 * u) / 2] := by
  simp only [row_offsets, calculate_row_layout, row_layout_go, List.map,
    List.cons.injEq, and_true]
  refine ⟨by ring, by ring, by ring⟩

/-- C4 counterexample: with widths `[2, 1, 1]` and unit size 1 the centered
offsets are `[-1, 1/2, 3/2]`, whose sum is `1`, not zero as claimed. -/
theorem row_offsets_211_sum_ne_zero :
    row_offsets [2, 1, 1] 1 = [-1, 1/2, 3/2] ∧ (row_offsets [2, 1, 1] 1).sum ≠ 0 := by
  have h := row_offsets_three 2 1 1 1
  norm_num at h
  rw [h]
  norm_num

/-- C4 (amended): for every unit size `u`, uniform widths `[1,1,1]` give
offsets `[-u, 0, u]`, which sum to zero and are symmetric about zero; widths
`[2,1,1]` give `[-u, u/2, 3u/2]` — asymmetric magnitudes consistent with the
widths — summing to `u` (the span, not the centroid, is centered). -/
theorem row_layout_centering (u : ℚ) :
    row_offsets [1, 1, 1] u = [-u, 0, u] ∧
    (row_offsets [1, 1, 1] u).sum = 0 ∧
    (row_offsets [1, 1, 1] u).reverse.map Neg.neg = row_offsets [1, 1, 1] u ∧
    row_offsets [2, 1, 1] u = [-u, u/2, 3*u/2] ∧
    (row_offsets [2, 1, 1] u).sum = u := by
  have h1 : row_offsets [1, 1, 1] u = [-u, 0, u] := by
    rw [row_offsets_three]
    simp only [List.cons.injEq, and_true]
    refine ⟨by ring, by ring, by ring⟩
  have h2 : row_offsets [2, 1, 1] u = [-u, u/2, 3*u/2] := by
    rw [row_offsets_three]
    simp only [List.cons.injEq, and_true]
    refine ⟨by ring, by ring, by ring⟩
  refine ⟨h1, ?_, ?_, h2, ?_⟩
  · rw [h1]; simp
  · rw [h1]; simp
  · rw [h2]; simp; ring

/-! ## Claim C3 (corrected): arc angles of a 10-key row -/

theorem row_offsets_ten_units :
    row_offsets (List.replicate 10 1) 18 =
      [-81, -63, -45, -27, -9, 9, 27, 45, 63, 81] := by
  simp only [List.replicate, row_offsets, calculate_row_layout, row_layout_go, List.map,
    List.cons.injEq, and_true]
  norm_num

/-- C3 counterexample: with `keyCount = 10`, `unitSize = 18` and
`handRadius = 96`, the layout's adjacent-key arc angle is `3/16 = 0.1875` rad
(the code has no `horizontalSpace` term), not `(18+2)/96 = 5/24`, and the last
key's angle is `27/32 = 0.84375` rad, not `0.9375`. -/
theorem row_angle_not_includes_horizontal_space :
    ((row_offsets (List.replicate 10 1) 18).map (fun o => o / 96)).getD 1 0 -
      ((row_offsets (List.replicate 10 1) 18).map (fun o => o / 96)).getD 0 0 = 3/16 ∧
    (3 : ℚ)/16 ≠ 5/24 ∧
    ((row_offsets (List.replicate 10 1) 18).map (fun o => o / 96)).getD 9 0 = 27/32 ∧
    (27 : ℚ)/32 ≠ 15/16 := by
  rw [row_offsets_ten_units]
  norm_num [List.getD]

/-- C3 (amended): for 10 keys of 18 mm at arc radius 96 mm, every pair of
adjacent keys subtends `18/96 = 0.1875` rad, the total span is
`9 * 0.1875 = 1.6875` rad, symmetric about zero (first and last angles are
`-27/32` and `27/32`, i.e. `∓0.84375` rad), and the index-based
`calculate_placement` angles agree with the offsets-based ones. -/
theorem row_angles_ten_keys :
    (∀ i : Fin 9,
      ((row_offsets (List.replicate 10 1) 18).map (fun o => o / 96)).getD (i.1 + 1) 0 -
        ((row_offsets (List.replicate 10 1) 18).map (fun o => o / 96)).getD i.1 0 = 3/16) ∧
    ((row_offsets (List.replicate 10 1) 18).map (fun o => o / 96)).getD 0 0 = -(27/32) ∧
    ((row_offsets (List.replicate 10 1) 18).map (fun o => o / 96)).getD 9 0 = 27/32 ∧
    ((row_offsets (List.replicate 10 1) 18).map (fun o => o / 96)).getD 9 0 -
      ((row_offsets (List.replicate 10 1) 18).map (fun o => o / 96)).getD 0 0 = 27/16 ∧
    ((row_offsets (List.replicate 10 1) 18).map (fun o => o / 96)).getD 0 0 +
      ((row_offsets (List.replicate 10 1) 18).map (fun o => o / 96)).getD 9 0 = 0 ∧
    (∀ i : Fin 10,
      calculate_placement_angle i.1 10 18 96 =
        ((row_offsets (List.replicate 10 1) 18).map (fun o => o / 96)).getD i.1 0) := by
  rw [row_offsets_ten_units]
  refine ⟨?_, ?_, ?_, ?_, ?_, ?_⟩
  · intro i; fin_cases i <;> norm_num [List.getD]
  · norm_num [List.getD]
  · norm_num [List.getD]
  · norm_num [List.getD]
  · norm_num [List.getD]
  · intro i; fin_cases i <;> norm_num [List.getD, calculate_placement_angle]

/-! ## Claim C6 (corrected): canonicalization edits vertex data -/

theorem center_single_vertex :
    center_keycap_mesh [⟨1, 2, 3⟩] = [⟨0, 0, 0⟩] := by
  simp only [center_keycap_mesh, mesh_translate, mesh_center_offset, listMinQ, listMaxQ,
    List.map, List.foldl, List.cons.injEq, and_true, V3Q.mk.injEq]
  norm_num

/-- C6 counterexample: loading a mesh with the single vertex `(1, 2, 3)` and
running the centering step rewrites its vertex data to `(0, 0, 0)` — the
canonicalization translation is baked into the geometry. -/
theorem centering_edits_vertices :
    center_keycap_mesh [⟨1, 2, 3⟩] = [⟨0, 0, 0⟩] ∧
    center_keycap_mesh [⟨1, 2, 3⟩] ≠ [⟨1, 2, 3⟩] := by
  refine ⟨center_single_vertex, ?_⟩
  rw [center_single_vertex]
  simp only [ne_eq, List.cons.injEq, and_true, V3Q.mk.injEq]
  norm_num

theorem list_map_fixes_of_eq_self {α : Type} {f : α → α} :
    ∀ {l : List α}, l.map f = l → ∀ x ∈ l, f x = x := by
  intro l
  induction l with
  | nil => intro _ x hx; cases hx
  | cons a t ih =>
    intro h x hx
    rw [List.map_cons, List.cons.injEq] at h
    rcases List.mem_cons.mp hx with hxa | hxt
    · rw [hxa]; exact h.1
    · exact ih h.2 x hxt

/-- C6 (amended): whenever the bounding-box centering offset of a nonempty
mesh is nonzero, the canonicalization step changes the mesh's vertex data
(it bakes the translation into geometry rather than returning a placement). -/
theorem centering_mutates_mesh (m : List V3Q) (v : V3Q) (hv : v ∈ m)
    (h : mesh_center_offset m ≠ ⟨0, 0, 0⟩) : center_keycap_mesh m ≠ m := by
  intro heq
  apply h
  have hmap : ∀ w ∈ m,
      (⟨w.x + (mesh_center_offset m).x, w.y + (mesh_center_offset m).y,
        w.z + (mesh_center_offset m).z⟩ : V3Q) = w := by
    unfold center_keycap_mesh mesh_translate at heq
    exact list_map_fixes_of_eq_self heq
  have hv2 := hmap v hv
  have hx : v.x + (mesh_center_offset m).x = v.x := congrArg V3Q.x hv2
  have hy : v.y + (mesh_center_offset m).y = v.y := congrArg V3Q.y hv2
  have hz : v.z + (mesh_center_offset m).z = v.z := congrArg V3Q.z hv2
  refine V3Q.ext ?_ ?_ ?_
  · show (mesh_center_offset m).x = 0
    linarith
  · show (mesh_center_offset m).y = 0
    linarith
  · show (mesh_center_offset m).z = 0
    linarith

/-- Witness for C6 at the concrete one-vertex mesh `[(1, 2, 3)]`. -/
theorem centering_mutates_mesh_witness :
    center_keycap_mesh [⟨1, 2, 3⟩] ≠ [⟨1, 2, 3⟩] :=
  centering_mutates_mesh [⟨1, 2, 3⟩] ⟨1, 2, 3⟩ (by simp)
    (by
      simp only [mesh_center_offset, listMinQ, listMaxQ, List.map, List.foldl, ne_eq,
        V3Q.mk.injEq, not_and]
      norm_num)

/-! ## Per-key emitter (main.py lines 441–520) -/

/-- Rotation about the X axis (FreeCAD `Rotation(Vector(1,0,0), angle)`,
acting on vectors; the degree/radian conversion in the source is the
identity on the rotation itself). -/
noncomputable def rotX (a : ℝ) : Vec3 → Vec3 := fun v =>
  ⟨v.x, Real.cos a * v.y - Real.sin a * v.z, Real.sin a * v.y + Real.cos a * v.z⟩

/-- Rotation about the Y axis (FreeCAD `Rotation(Vector(0,1,0), angle)`). -/
noncomputable def rotY (a : ℝ) : Vec3 → Vec3 := fun v =>
  ⟨Real.cos a * v.x + Real.sin a * v.z, v.y, -(Real.sin a) * v.x + Real.cos a * v.z⟩

/-- `Rotation.multiply`: apply the second rotation, then the first. -/
def rot_multiply (r1 r2 : Vec3 → Vec3) : Vec3 → Vec3 := fun v => r1 (r2 v)

/-- Rotation built from a matrix whose columns are the frame axes
(main.py lines 453–460). -/
def frame_rot (xa ya za : Vec3) : Vec3 → Vec3 := fun v =>
  ⟨v.x * xa.x + v.y * ya.x + v.z * za.x,
   v.x * xa.y + v.y * ya.y + v.z * za.y,
   v.x * xa.z + v.y * ya.z + v.z * za.z⟩

/-- Row frame, step 1: `x_axis = z_axis.cross(y_axis)` normalized, with
`z_axis` the spiral normal (main.py lines 446–449). -/
noncomputable def row_x_axis (theta d : ℝ) : Vec3 :=
  normalize3 (cross3 (spiral_normal_at_angle theta d) ⟨0, 1, 0⟩)

/-- Row frame, step 2: `z_axis = x_axis.cross(y_axis)` normalized
(main.py lines 450–451). -/
noncomputable def row_z_axis (theta d : ℝ) : Vec3 :=
  normalize3 (cross3 (row_x_axis theta d) ⟨0, 1, 0⟩)

/-- The row's `local_to_global` rotation (main.py lines 453–460). -/
noncomputable def local_to_global (theta d : ℝ) : Vec3 → Vec3 :=
  frame_rot (row_x_axis theta d) ⟨0, 1, 0⟩ (row_z_axis theta d)

/-- `global_rotation = local_to_global.multiply(roll_rot.multiply(pitch_rot))`
with roll angle `key_offset_y / roll_radius` and the configured pitch
(main.py lines 479–484). -/
noncomputable def key_global_rotation (theta d key_offset_y roll_radius pitch : ℝ) :
    Vec3 → Vec3 :=
  rot_multiply (local_to_global theta d)
    (rot_multiply (rotX (key_offset_y / roll_radius)) (rotY pitch))

/-- `global_position = spiral_pos + local_to_global.multVec(local_vec)`
(main.py lines 474–487). -/
noncomputable def key_global_position (theta d key_offset_y roll_radius : ℝ) : Vec3 :=
  spiral_position_at_angle theta d ⟨0, 0, 0⟩ +
    local_to_global theta d
      ⟨0, roll_radius * Real.sin (key_offset_y / roll_radius),
       roll_radius * (1 - Real.cos (key_offset_y / roll_radius))⟩

/-- A FreeCAD placement: world position plus rotation. -/
structure Placement where
  pos : Vec3
  rot : Vec3 → Vec3

/-- The keycap's `final_placement` (main.py line 495). -/
noncomputable def keycap_placement (theta d key_offset_y roll_radius pitch : ℝ) :
    Placement :=
  ⟨key_global_position theta d key_offset_y roll_radius,
   key_global_rotation theta d key_offset_y roll_radius pitch⟩

/-- The switch placement: position
`global_position + global_rotation.multVec((0, 0, -switch_offset))`, same
rotation (main.py lines 502–505). -/
noncomputable def switch_placement (theta d key_offset_y roll_radius pitch s_offset : ℝ) :
    Placement :=
  ⟨key_global_position theta d key_offset_y roll_radius +
     key_global_rotation theta d key_offset_y roll_radius pitch ⟨0, 0, -s_offset⟩,
   key_global_rotation theta d key_offset_y roll_radius pitch⟩

/-- The switchplate placement: local offset `(0, 0, -mount_offset)` rotated by
the shared rotation (main.py lines 513–516). -/
noncomputable def switchplate_placement
    (theta d key_offset_y roll_radius pitch m_offset : ℝ) : Placement :=
  ⟨key_global_position theta d key_offset_y roll_radius +
     key_global_rotation theta d key_offset_y roll_radius pitch ⟨0, 0, -m_offset⟩,
   key_global_rotation theta d key_offset_y roll_radius pitch⟩

/-! ## Claim C1: rigid attachment of switch and switchplate -/

/-- C1: for every emitted key instance (any spiral angle, diameter, in-row
offset, roll radius, pitch and assembly offsets), the switch and the
switchplate receive exactly the keycap's world rotation `R`, and their world
positions equal `T + R·Δ` where `T` is the keycap's world position and `Δ` is
the local-frame offset (`(0,0,-switchOffset)` resp. `(0,0,-mountOffset)`)
rotated by the shared rotation — never `T + Δ` in world axes. -/
theorem rigid_attachment (theta d key_offset_y roll_radius pitch s_offset m_offset : ℝ) :
    (switch_placement theta d key_offset_y roll_radius pitch s_offset).rot =
      (keycap_placement theta d key_offset_y roll_radius pitch).rot ∧
    (switch_placement theta d key_offset_y roll_radius pitch s_offset).pos =
      (keycap_placement theta d key_offset_y roll_radius pitch).pos +
        (keycap_placement theta d key_offset_y roll_radius pitch).rot ⟨0, 0, -s_offset⟩ ∧
    (switchplate_placement theta d key_offset_y roll_radius pitch m_offset).rot =
      (keycap_placement theta d key_offset_y roll_radius pitch).rot ∧
    (switchplate_placement theta d key_offset_y roll_radius pitch m_offset).pos =
      (keycap_placement theta d key_offset_y roll_radius pitch).pos +
        (keycap_placement theta d key_offset_y roll_radius pitch).rot ⟨0, 0, -m_offset⟩ :=
  ⟨rfl, rfl, rfl, rfl⟩

/-! ## Arc-length integration and inversion (main.py lines 325–352) -/

/-- `arc_length_from_start(end_theta, num_segments)`: chord-sum over
`num_segments` uniform sub-samples between `start_theta` and `end_theta`
(the source nests this in `find_theta_at_arc_distance`). -/
noncomputable def arc_length_from_start
    (start_theta end_theta start_diameter : ℝ) (num_segments : ℕ) : ℝ :=
  ∑ i in Finset.range num_segments,
    dist3
      (spiral_position_at_angle
        (start_theta + (end_theta - start_theta) * (i : ℝ) / (num_segments : ℝ))
        start_diameter ⟨0, 0, 0⟩)
      (spiral_position_at_angle
        (start_theta + (end_theta - start_theta) * ((i : ℝ) + 1) / (num_segments : ℝ))
        start_diameter ⟨0, 0, 0⟩)

open Classical in
/-- The bisection loop of `find_theta_at_arc_distance`, by remaining
iteration count; falling out of the loop returns the bracket midpoint. -/
noncomputable def bisect_theta
    (start_theta arc_distance start_diameter tolerance : ℝ) :
    ℕ → ℝ → ℝ → ℝ
  | 0, theta_min, theta_max => (theta_min + theta_max) / 2
  | n + 1, theta_min, theta_max =>
    if |arc_length_from_start start_theta ((theta_min + theta_max) / 2)
          start_diameter 50 - arc_distance| < tolerance then
      (theta_min + theta_max) / 2
    else if arc_length_from_start start_theta ((theta_min + theta_max) / 2)
          start_diameter 50 < arc_distance then
      bisect_theta start_theta arc_distance start_diameter tolerance n
        ((theta_min + theta_max) / 2) theta_max
    else
      bisect_theta start_theta arc_distance start_diameter tolerance n
        theta_min ((theta_min + theta_max) / 2)

/-- `find_theta_at_arc_distance(start_theta, arc_distance, start_diameter,
tolerance, max_iterations)`: bisection over one full turn past the start. -/
noncomputable def find_theta_at_arc_distance
    (start_theta arc_distance start_diameter tolerance : ℝ)
    (max_iterations : ℕ) : ℝ :=
  bisect_theta start_theta arc_distance start_diameter tolerance max_iterations
    start_theta (start_theta + 2 * Real.pi)

theorem arc_length_from_start_nonneg (s e d : ℝ) (n : ℕ) :
    0 ≤ arc_length_from_start s e d n :=
  Finset.sum_nonneg fun _ _ => Real.sqrt_nonneg _

theorem arc_length_from_start_zero_diam (s e : ℝ) (n : ℕ) :
    arc_length_from_start s e 0 n = 0 := by
  unfold arc_length_from_start
  apply Finset.sum_eq_zero
  intro i _
  simp [dist3, spiral_position_at_angle, spiral_radius_at_angle]

theorem bisect_theta_mem (s L d tol : ℝ) :
    ∀ (n : ℕ) (a b : ℝ), a < b →
      a < bisect_theta s L d tol n a b ∧ bisect_theta s L d tol n a b < b := by
  intro n
  induction n with
  | zero =>
    intro a b hab
    constructor <;> simp only [bisect_theta] <;> linarith
  | succ n ih =>
    intro a b hab
    simp only [bisect_theta]
    split_ifs with h1 h2
    · constructor <;> linarith
    · have h := ih ((a + b) / 2) b (by linarith)
      constructor <;> linarith [h.1, h.2]
    · have h := ih a ((a + b) / 2) (by linarith)
      constructor <;> linarith [h.1, h.2]

theorem bisect_theta_tol_or_mid (s L d tol : ℝ) :
    ∀ (n : ℕ) (a b : ℝ), a ≤ b →
      |arc_length_from_start s (bisect_theta s L d tol n a b) d 50 - L| < tol ∨
      ∃ p q, a ≤ p ∧ q ≤ b ∧ q - p = (b - a) / 2 ^ n ∧
        bisect_theta s L d tol n a b = (p + q) / 2 := by
  intro n
  induction n with
  | zero =>
    intro a b _
    right
    exact ⟨a, b, le_refl a, le_refl b, by norm_num, by simp only [bisect_theta]⟩
  | succ n ih =>
    intro a b hab
    simp only [bisect_theta]
    split_ifs with h1 h2
    · left; exact h1
    · rcases ih ((a + b) / 2) b (by linarith) with h | ⟨p, q, hp, hq, hw, he⟩
      · left; exact h
      · right
        refine ⟨p, q, by linarith, hq, ?_, he⟩
        rw [hw, pow_succ]
        ring
    · rcases ih a ((a + b) / 2) (by linarith) with h | ⟨p, q, hp, hq, hw, he⟩
      · left; exact h
      · right
        refine ⟨p, q, hp, by linarith, ?_, he⟩
        rw [hw, pow_succ]
        ring

theorem bisect_theta_all_short (s L d tol : ℝ) (htol : 0 < tol) :
    ∀ (n : ℕ) (a b : ℝ), a ≤ b →
      (∀ θ, a ≤ θ → θ ≤ b → arc_length_from_start s θ d 50 + tol ≤ L) →
      bisect_theta s L d tol n a b = b - (b - a) / 2 ^ (n + 1) := by
  intro n
  induction n with
  | zero =>
    intro a b hab hall
    simp only [bisect_theta]
    ring
  | succ n ih =>
    intro a b hab hall
    have hmlo : a ≤ (a + b) / 2 := by linarith
    have hmhi : (a + b) / 2 ≤ b := by linarith
    have hlen := hall ((a + b) / 2) hmlo hmhi
    simp only [bisect_theta]
    have h1 : ¬ |arc_length_from_start s ((a + b) / 2) d 50 - L| < tol := by
      rw [abs_lt]
      push_neg
      intro h
      linarith
    have h2 : arc_length_from_start s ((a + b) / 2) d 50 < L := by linarith
    rw [if_neg h1, if_pos h2,
      ih ((a + b) / 2) b hmhi (fun θ hθa hθb => hall θ (by linarith) hθb)]
    rw [pow_succ (2 : ℝ) (n + 1)]
    ring

/-! ## Claims C5, C7, C10: the arc-length inverter -/

/-- C5 counterexample: with target length `L = 0` the inverter does not
return `theta_start`: at `theta_start = 0`, diameter 192, tolerance `0.01`
and 100 iterations the result is strictly positive. -/
theorem inverter_zero_length_not_start :
    find_theta_at_arc_distance 0 0 192 (1/100) 100 ≠ 0 := by
  have h := bisect_theta_mem 0 0 192 (1/100) 100 0 (0 + 2 * Real.pi)
    (by linarith [Real.pi_pos])
  exact ne_of_gt h.1

/-- C5 (amended): for positive tolerance the inverter either returns a
`theta` whose re-integrated chord-sum arc length from `theta_start` is within
the tolerance of `L`, or — when the iteration cap runs out first — the
midpoint of a final bracket of width `2 pi / 2 ^ iters` inside
`[theta_start, theta_start + 2 pi]`; for `L = 0` (with at least one
iteration) it returns a `theta` strictly greater than `theta_start` and at
most `theta_start + pi`, never `theta_start` itself. -/
theorem find_theta_arc_length_inversion
    (s L d tol : ℝ) (iters : ℕ) (htol : 0 < tol) :
    (|arc_length_from_start s (find_theta_at_arc_distance s L d tol iters) d 50 - L| < tol ∨
      ∃ p q, s ≤ p ∧ q ≤ s + 2 * Real.pi ∧ q - p = 2 * Real.pi / 2 ^ iters ∧
        find_theta_at_arc_distance s L d tol iters = (p + q) / 2) ∧
    (L = 0 → 1 ≤ iters →
      s < find_theta_at_arc_distance s L d tol iters ∧
      find_theta_at_arc_distance s L d tol iters ≤ s + Real.pi) := by
  constructor
  · rcases bisect_theta_tol_or_mid s L d tol iters s (s + 2 * Real.pi)
        (by linarith [Real.pi_pos]) with h | ⟨p, q, hp, hq, hw, he⟩
    · left; exact h
    · right
      refine ⟨p, q, hp, hq, ?_, he⟩
      have hred : s + 2 * Real.pi - s = 2 * Real.pi := by ring
      rw [hred] at hw
      exact hw
  · intro hL hiters
    obtain ⟨n, rfl⟩ : ∃ n, iters = n + 1 := ⟨iters - 1, by omega⟩
    subst hL
    unfold find_theta_at_arc_distance
    simp only [bisect_theta]
    have hM : (s + (s + 2 * Real.pi)) / 2 = s + Real.pi := by ring
    split_ifs with h1 h2
    · rw [hM]
      exact ⟨by linarith [Real.pi_pos], le_refl _⟩
    · exact absurd h2 (not_lt.mpr (arc_length_from_start_nonneg _ _ _ _))
    · rw [hM]
      have hb := bisect_theta_mem s 0 d tol n s (s + Real.pi) (by linarith [Real.pi_pos])
      exact ⟨hb.1, le_of_lt hb.2⟩

/-- Witness for C5: at `theta_start = 0`, `L = 0`, diameter 192, tolerance
`0.01` and 100 iterations the inverter returns a strictly positive angle. -/
theorem find_theta_arc_length_inversion_witness :
    0 < find_theta_at_arc_distance 0 0 192 (1/100) 100 :=
  ((find_theta_arc_length_inversion 0 0 192 (1/100) 100 (by norm_num)).2
    rfl (by norm_num)).1

/-- C7 counterexample: when the iteration cap (here 0) is exhausted without
reaching the tolerance, the inverter returns exactly the bracket
midpoint — a bare angle, with no flag or warning attached. -/
theorem inverter_cap_exhausted_returns_midpoint :
    find_theta_at_arc_distance 0 30 192 (1/100) 0 = Real.pi := by
  show (0 + (0 + 2 * Real.pi)) / 2 = Real.pi
  ring

/-- C7 (amended): the inverter is total and recovers from non-convergence
silently: for every input it either returns an angle whose chord-sum arc
length is within the tolerance of the target, or returns the midpoint of the
final bisection bracket (of width `2 pi / 2 ^ iters`, inside one turn past
the start) as a best estimate; no flag or warning accompanies the result and
no error is raised. -/
theorem inverter_best_estimate_on_nonconvergence (s L d tol : ℝ) (iters : ℕ) :
    |arc_length_from_start s (find_theta_at_arc_distance s L d tol iters) d 50 - L| < tol ∨
    ∃ p q, s ≤ p ∧ q ≤ s + 2 * Real.pi ∧ q - p = 2 * Real.pi / 2 ^ iters ∧
      find_theta_at_arc_distance s L d tol iters = (p + q) / 2 := by
  rcases bisect_theta_tol_or_mid s L d tol iters s (s + 2 * Real.pi)
      (by linarith [Real.pi_pos]) with h | ⟨p, q, hp, hq, hw, he⟩
  · left; exact h
  · right
    refine ⟨p, q, hp, hq, ?_, he⟩
    have hred : s + 2 * Real.pi - s = 2 * Real.pi := by ring
    rw [hred] at hw
    exact hw

/-- C10: every value the inverter returns lies strictly inside
`(theta_start, theta_start + 2 pi)` — hence in the closed window
`[theta_start, theta_start + 2 pi]`; and when the target length exceeds (by
at least the tolerance) every chord-sum arc length reachable within one
turn, the result is silently clamped: it equals the midpoint of the final
all-the-way-right bracket, `theta_start + 2 pi - 2 pi / 2 ^ (iters + 1)`,
and the target length is not reached (it still exceeds the re-integrated
length at the result by at least the tolerance). -/
theorem find_theta_bounded_window (s L d tol : ℝ) (iters : ℕ) (htol : 0 < tol) :
    (s < find_theta_at_arc_distance s L d tol iters ∧
      find_theta_at_arc_distance s L d tol iters < s + 2 * Real.pi) ∧
    ((∀ θ, s ≤ θ → θ ≤ s + 2 * Real.pi →
        arc_length_from_start s θ d 50 + tol ≤ L) →
      find_theta_at_arc_distance s L d tol iters =
        s + 2 * Real.pi - 2 * Real.pi / 2 ^ (iters + 1) ∧
      arc_length_from_start s (find_theta_at_arc_distance s L d tol iters) d 50 +
        tol ≤ L) := by
  have hmem := bisect_theta_mem s L d tol iters s (s + 2 * Real.pi)
    (by linarith [Real.pi_pos])
  refine ⟨hmem, ?_⟩
  intro hall
  have heq := bisect_theta_all_short s L d tol htol iters s (s + 2 * Real.pi)
    (by linarith [Real.pi_pos]) hall
  constructor
  · unfold find_theta_at_arc_distance
    rw [heq]
    ring
  · exact hall _ (le_of_lt hmem.1) (le_of_lt hmem.2)

/-- Witness for C10 at a degenerate zero-diameter spiral (every chord-sum
arc length is 0, so a target of 1 with tolerance 1 is unreachable):
with 3 iterations the inverter returns the clamped midpoint. -/
theorem find_theta_bounded_window_witness :
    find_theta_at_arc_distance 0 1 0 1 3 =
      0 + 2 * Real.pi - 2 * Real.pi / 2 ^ (3 + 1) :=
  ((find_theta_bounded_window 0 1 0 1 3 (by norm_num)).2
    (fun θ _ _ => by rw [arc_length_from_start_zero_diam]; norm_num)).1

/-! ## Claim C9 (corrected): chord-sum arc length vs. monotonicity -/

/-- C9 (amended): monotonicity against the start point holds — for every
`theta ≥ theta_start` the chord-sum arc length from `theta_start` to `theta`
is at least that from `theta_start` to `theta_start` itself, which is zero.
(Monotonicity between two arbitrary endpoints fails; see the
counterexample.) -/
theorem arc_length_monotone_from_start (s θ d : ℝ) (n : ℕ) (h : s ≤ θ) :
    arc_length_from_start s s d n ≤ arc_length_from_start s θ d n ∧
    arc_length_from_start s s d n = 0 := by
  have hz : arc_length_from_start s s d n = 0 := by
    unfold arc_length_from_start
    apply Finset.sum_eq_zero
    intro i _
    have e1 : s + (s - s) * (i : ℝ) / (n : ℝ) = s := by ring
    have e2 : s + (s - s) * ((i : ℝ) + 1) / (n : ℝ) = s := by ring
    rw [e1, e2]
    simp [dist3]
  exact ⟨hz ▸ arc_length_from_start_nonneg s θ d n, hz⟩

/-- Witness for C9 at `theta_start = 0`, `theta = 1`, diameter 192. -/
theorem arc_length_monotone_from_start_witness :
    arc_length_from_start 0 0 192 50 ≤ arc_length_from_start 0 1 192 50 :=
  (arc_length_monotone_from_start 0 1 192 50 (by norm_num)).1

/-! ## Claim C8: spiral outward normal is total and never degenerate -/

theorem one_lt_PHI : 1 < PHI := by
  unfold PHI
  have h5 : (1 : ℝ) < Real.sqrt 5 := by
    rw [show (1 : ℝ) = Real.sqrt 1 from Real.sqrt_one.symm]
    exact Real.sqrt_lt_sqrt (by norm_num) (by norm_num)
  linarith

theorem PHI_pos : 0 < PHI := lt_trans one_pos one_lt_PHI

/-- The radial derivative `dr_dtheta` of the spiral (main.py line 306). -/
noncomputable def spiral_dr (theta d : ℝ) : ℝ :=
  -(d / 2) * Real.log PHI / (Real.pi / 2) * PHI ^ (-theta / (Real.pi / 2))

/-- The unnormalized tangent X component `dx_dtheta` (main.py line 308). -/
noncomputable def spiral_dx (theta d : ℝ) : ℝ :=
  -spiral_dr theta d * Real.cos theta + spiral_radius_at_angle theta d * Real.sin theta

/-- The unnormalized tangent Z component `dz_dtheta` (main.py line 309). -/
noncomputable def spiral_dz (theta d : ℝ) : ℝ :=
  spiral_dr theta d * Real.sin theta + spiral_radius_at_angle theta d * Real.cos theta

theorem spiral_tangent_eq (theta d : ℝ) :
    spiral_tangent_at_angle theta d =
      normalize3 ⟨spiral_dx theta d, 0, spiral_dz theta d⟩ := rfl

theorem norm3_mk (a b c : ℝ) :
    norm3 ⟨a, b, c⟩ = Real.sqrt (a ^ 2 + b ^ 2 + c ^ 2) := rfl

theorem normalize3_of_norm_one (w : Vec3) (h : norm3 w = 1) : normalize3 w = w := by
  unfold normalize3
  rw [h]
  ext <;> simp

/-- C8: for every angle and positive diameter the outward-normal
computation is total and non-degenerate: the normal is
`tangent × (0,1,0)` normalized, the cross product is never the zero vector
(the unit tangent lies in the XZ plane, so it is never parallel to the
reference axis — the degenerate case is unreachable and no fallback axis is
ever required), and the returned normal is a unit vector. -/
theorem spiral_normal_never_degenerate (theta d : ℝ) (hd : 0 < d) :
    cross3 (spiral_tangent_at_angle theta d) ⟨0, 1, 0⟩ ≠ (⟨0, 0, 0⟩ : Vec3) ∧
    spiral_normal_at_angle theta d =
      normalize3 (cross3 (spiral_tangent_at_angle theta d) ⟨0, 1, 0⟩) ∧
    norm3 (spiral_normal_at_angle theta d) = 1 := by
  have hR : 0 < spiral_radius_at_angle theta d := by
    unfold spiral_radius_at_angle
    exact mul_pos (by linarith) (Real.rpow_pos_of_pos PHI_pos _)
  have hsq : spiral_dx theta d ^ 2 + spiral_dz theta d ^ 2 =
      spiral_dr theta d ^ 2 + spiral_radius_at_angle theta d ^ 2 := by
    have h1 : spiral_dx theta d ^ 2 + spiral_dz theta d ^ 2 =
        (spiral_dr theta d ^ 2 + spiral_radius_at_angle theta d ^ 2) *
          (Real.sin theta ^ 2 + Real.cos theta ^ 2) := by
      unfold spiral_dx spiral_dz
      ring
    rw [h1, Real.sin_sq_add_cos_sq, mul_one]
  have hpos : 0 < spiral_dx theta d ^ 2 + spiral_dz theta d ^ 2 := by
    rw [hsq]
    have := sq_nonneg (spiral_dr theta d)
    nlinarith [hR]
  have hNval : norm3 ⟨spiral_dx theta d, 0, spiral_dz theta d⟩ =
      Real.sqrt (spiral_dx theta d ^ 2 + spiral_dz theta d ^ 2) := by
    rw [norm3_mk]
    norm_num
  have hNpos : 0 < norm3 ⟨spiral_dx theta d, 0, spiral_dz theta d⟩ := by
    rw [hNval]
    exact Real.sqrt_pos.mpr hpos
  have hNsq : norm3 ⟨spiral_dx theta d, 0, spiral_dz theta d⟩ ^ 2 =
      spiral_dx theta d ^ 2 + spiral_dz theta d ^ 2 := by
    rw [hNval]
    exact Real.sq_sqrt (le_of_lt hpos)
  have hcross : cross3 (spiral_tangent_at_angle theta d) ⟨0, 1, 0⟩ =
      ⟨-(spiral_dz theta d / norm3 ⟨spiral_dx theta d, 0, spiral_dz theta d⟩), 0,
        spiral_dx theta d / norm3 ⟨spiral_dx theta d, 0, spiral_dz theta d⟩⟩ := by
    rw [spiral_tangent_eq]
    unfold normalize3 cross3
    ext <;> ring
  have hnormcross : norm3 (cross3 (spiral_tangent_at_angle theta d) ⟨0, 1, 0⟩) = 1 := by
    rw [hcross, norm3_mk]
    have e : (-(spiral_dz theta d / norm3 ⟨spiral_dx theta d, 0, spiral_dz theta d⟩)) ^ 2 +
        (0 : ℝ) ^ 2 +
        (spiral_dx theta d / norm3 ⟨spiral_dx theta d, 0, spiral_dz theta d⟩) ^ 2 =
        (spiral_dx theta d ^ 2 + spiral_dz theta d ^ 2) /
          norm3 ⟨spiral_dx theta d, 0, spiral_dz theta d⟩ ^ 2 := by
      field_simp
      ring
    rw [e, hNsq, div_self (ne_of_gt hpos), Real.sqrt_one]
  have hnz : cross3 (spiral_tangent_at_angle theta d) ⟨0, 1, 0⟩ ≠ (⟨0, 0, 0⟩ : Vec3) := by
    intro h
    have hx := congrArg Vec3.x h
    have hz := congrArg Vec3.z h
    rw [hcross] at hx hz
    have hdz : spiral_dz theta d = 0 := by
      have := hx
      field_simp at this
      exact this
    have hdx : spiral_dx theta d = 0 := by
      have := hz
      field_simp at this
      exact this
    rw [hdx, hdz] at hpos
    norm_num at hpos
  refine ⟨hnz, rfl, ?_⟩
  show norm3 (normalize3 (cross3 (spiral_tangent_at_angle theta d) ⟨0, 1, 0⟩)) = 1
  rw [normalize3_of_norm_one _ hnormcross]
  exact hnormcross

/-- Witness for C8 at `theta = 0` and diameter 192: the emitted normal is a
unit vector. -/
theorem spiral_normal_never_degenerate_witness :
    norm3 (spiral_normal_at_angle 0 192) = 1 :=
  (spiral_normal_never_degenerate 0 192 (by norm_num)).2.2

/-! ## Claim C9 counterexample: non-monotonicity across half-turn samples -/

theorem dist3_mk (a1 a2 a3 b1 b2 b3 : ℝ) :
    dist3 ⟨a1, a2, a3⟩ ⟨b1, b2, b3⟩ =
      Real.sqrt ((a1 - b1) ^ 2 + (a2 - b2) ^ 2 + (a3 - b3) ^ 2) := rfl

theorem cos_nat_pi (i : ℕ) : Real.cos ((i : ℝ) * Real.pi) = (-1) ^ i := by
  have h := Real.cos_nat_mul_pi_sub 0 i
  simpa using h

theorem radius_nat_pi (i : ℕ) :
    spiral_radius_at_angle ((i : ℝ) * Real.pi) 192 = 96 * (PHI ^ (-2 : ℝ)) ^ i := by
  unfold spiral_radius_at_angle
  have he : -((i : ℝ) * Real.pi) / (Real.pi / 2) = (-2 : ℝ) * (i : ℝ) := by
    field_simp
    ring
  rw [he, Real.rpow_mul (le_of_lt PHI_pos) (-2 : ℝ) (i : ℝ),
    Real.rpow_natCast (PHI ^ (-2 : ℝ)) i]
  norm_num

theorem radius_nat_two_pi (i : ℕ) :
    spiral_radius_at_angle ((i : ℝ) * (2 * Real.pi)) 192 =
      96 * (PHI ^ (-4 : ℝ)) ^ i := by
  unfold spiral_radius_at_angle
  have he : -((i : ℝ) * (2 * Real.pi)) / (Real.pi / 2) = (-4 : ℝ) * (i : ℝ) := by
    field_simp
    ring
  rw [he, Real.rpow_mul (le_of_lt PHI_pos) (-4 : ℝ) (i : ℝ),
    Real.rpow_natCast (PHI ^ (-4 : ℝ)) i]
  norm_num

theorem chord_pi_step (i : ℕ) :
    dist3 (spiral_position_at_angle ((i : ℝ) * Real.pi) 192 ⟨0, 0, 0⟩)
      (spiral_position_at_angle (((i : ℝ) + 1) * Real.pi) 192 ⟨0, 0, 0⟩) =
      96 * (PHI ^ (-2 : ℝ)) ^ i * (1 + PHI ^ (-2 : ℝ)) := by
  have hq : (0 : ℝ) < PHI ^ (-2 : ℝ) := Real.rpow_pos_of_pos PHI_pos _
  have hip : ((i : ℝ) + 1) = ((i + 1 : ℕ) : ℝ) := by push_cast; ring
  unfold spiral_position_at_angle
  rw [hip, radius_nat_pi i, radius_nat_pi (i + 1), cos_nat_pi i, cos_nat_pi (i + 1),
    Real.sin_nat_mul_pi i, Real.sin_nat_mul_pi (i + 1), dist3_mk]
  have key : (((-1 : ℝ)) ^ i) ^ 2 = 1 := by
    rw [← pow_mul, mul_comm, pow_mul]
    norm_num
  have hB : (0 : ℝ) ≤ 96 * (PHI ^ (-2 : ℝ)) ^ i * (1 + PHI ^ (-2 : ℝ)) := by
    have := pow_pos hq i
    nlinarith
  rw [← Real.sqrt_sq hB]
  congr 1
  simp only [pow_succ]
  linear_combination (96 * (PHI ^ (-2 : ℝ)) ^ i * (1 + PHI ^ (-2 : ℝ))) ^ 2 * key

theorem chord_two_pi_step (i : ℕ) :
    dist3 (spiral_position_at_angle ((i : ℝ) * (2 * Real.pi)) 192 ⟨0, 0, 0⟩)
      (spiral_position_at_angle (((i : ℝ) + 1) * (2 * Real.pi)) 192 ⟨0, 0, 0⟩) =
      96 * (PHI ^ (-4 : ℝ)) ^ i * (1 - PHI ^ (-4 : ℝ)) := by
  have hQ : (0 : ℝ) < PHI ^ (-4 : ℝ) := Real.rpow_pos_of_pos PHI_pos _
  have hQ1 : PHI ^ (-4 : ℝ) < 1 :=
    Real.rpow_lt_one_of_one_lt_of_neg one_lt_PHI (by norm_num)
  have hip : ((i : ℝ) + 1) = ((i + 1 : ℕ) : ℝ) := by push_cast; ring
  have hs1 : Real.sin ((i : ℝ) * (2 * Real.pi)) = 0 := by
    rw [show (i : ℝ) * (2 * Real.pi) = ((2 * i : ℕ) : ℝ) * Real.pi by push_cast; ring]
    exact Real.sin_nat_mul_pi (2 * i)
  have hs2 : Real.sin (((i + 1 : ℕ) : ℝ) * (2 * Real.pi)) = 0 := by
    rw [show ((i + 1 : ℕ) : ℝ) * (2 * Real.pi) = ((2 * (i + 1) : ℕ) : ℝ) * Real.pi by
      push_cast; ring]
    exact Real.sin_nat_mul_pi (2 * (i + 1))
  unfold spiral_position_at_angle
  rw [hip, radius_nat_two_pi i, radius_nat_two_pi (i + 1),
    Real.cos_nat_mul_two_pi i, Real.cos_nat_mul_two_pi (i + 1), hs1, hs2, dist3_mk]
  have hB : (0 : ℝ) ≤ 96 * (PHI ^ (-4 : ℝ)) ^ i * (1 - PHI ^ (-4 : ℝ)) := by
    have := pow_pos hQ i
    nlinarith
  rw [← Real.sqrt_sq hB]
  congr 1
  simp only [pow_succ]
  ring

theorem chordsum_50pi :
    arc_length_from_start 0 (50 * Real.pi) 192 50 =
      ∑ i in Finset.range 50, 96 * (PHI ^ (-2 : ℝ)) ^ i * (1 + PHI ^ (-2 : ℝ)) := by
  unfold arc_length_from_start
  refine Finset.sum_congr rfl ?_
  intro i _
  have e1 : (0 : ℝ) + (50 * Real.pi - 0) * (i : ℝ) / ((50 : ℕ) : ℝ) =
      (i : ℝ) * Real.pi := by
    push_cast
    ring
  have e2 : (0 : ℝ) + (50 * Real.pi - 0) * ((i : ℝ) + 1) / ((50 : ℕ) : ℝ) =
      ((i : ℝ) + 1) * Real.pi := by
    push_cast
    ring
  rw [e1, e2, chord_pi_step]

theorem chordsum_100pi :
    arc_length_from_start 0 (100 * Real.pi) 192 50 =
      ∑ i in Finset.range 50, 96 * (PHI ^ (-4 : ℝ)) ^ i * (1 - PHI ^ (-4 : ℝ)) := by
  unfold arc_length_from_start
  refine Finset.sum_congr rfl ?_
  intro i _
  have e1 : (0 : ℝ) + (100 * Real.pi - 0) * (i : ℝ) / ((50 : ℕ) : ℝ) =
      (i : ℝ) * (2 * Real.pi) := by
    push_cast
    ring
  have e2 : (0 : ℝ) + (100 * Real.pi - 0) * ((i : ℝ) + 1) / ((50 : ℕ) : ℝ) =
      ((i : ℝ) + 1) * (2 * Real.pi) := by
    push_cast
    ring
  rw [e1, e2, chord_two_pi_step]

theorem chordsum_100pi_value :
    ∑ i in Finset.range 50, 96 * (PHI ^ (-4 : ℝ)) ^ i * (1 - PHI ^ (-4 : ℝ)) =
      96 * (1 - (PHI ^ (-4 : ℝ)) ^ 50) := by
  have h : ∀ i ∈ Finset.range 50,
      96 * (PHI ^ (-4 : ℝ)) ^ i * (1 - PHI ^ (-4 : ℝ)) =
        96 * ((PHI ^ (-4 : ℝ)) ^ i - (PHI ^ (-4 : ℝ)) ^ (i + 1)) := by
    intro i _
    rw [pow_succ]
    ring
  rw [Finset.sum_congr rfl h, ← Finset.mul_sum,
    Finset.sum_range_sub' (fun i => (PHI ^ (-4 : ℝ)) ^ i) 50, pow_zero]

/-- C9 counterexample: with `theta_start = 0` and diameter 192, the chord-sum
arc length (N = 50 uniform sub-samples) to `theta2 = 100 pi` is strictly
smaller than the one to `theta1 = 50 pi`, although `theta2 > theta1 ≥ 0`:
the fixed-N chord sum is not monotone in the end angle. -/
theorem chord_arc_length_not_monotone :
    (0 : ℝ) ≤ 50 * Real.pi ∧ 50 * Real.pi < 100 * Real.pi ∧
    arc_length_from_start 0 (100 * Real.pi) 192 50 <
      arc_length_from_start 0 (50 * Real.pi) 192 50 := by
  have hpi := Real.pi_pos
  have hq : (0 : ℝ) < PHI ^ (-2 : ℝ) := Real.rpow_pos_of_pos PHI_pos _
  have hQ : (0 : ℝ) < PHI ^ (-4 : ℝ) := Real.rpow_pos_of_pos PHI_pos _
  refine ⟨?_, ?_, ?_⟩
  · positivity
  · nlinarith
  rw [chordsum_50pi, chordsum_100pi, chordsum_100pi_value]
  have h0 : (0 : ℕ) ∈ Finset.range 50 := Finset.mem_range.mpr (by norm_num)
  have hnn : ∀ i ∈ Finset.range 50,
      (0 : ℝ) ≤ 96 * (PHI ^ (-2 : ℝ)) ^ i * (1 + PHI ^ (-2 : ℝ)) := by
    intro i _
    have := pow_pos hq i
    nlinarith
  have hfirst := @Finset.single_le_sum ℕ ℝ _
    (fun i => 96 * (PHI ^ (-2 : ℝ)) ^ i * (1 + PHI ^ (-2 : ℝ)))
    (Finset.range 50) hnn 0 h0
  simp only [pow_zero] at hfirst
  have hQ50 : (0 : ℝ) < (PHI ^ (-4 : ℝ)) ^ 50 := pow_pos hQ _
  have h1 : (96 : ℝ) * (1 - (PHI ^ (-4 : ℝ)) ^ 50) < 96 := by nlinarith
  have h2 : (96 : ℝ) < 96 * 1 * (1 + PHI ^ (-2 : ℝ)) := by nlinarith
  linarith
